import Mathlib

/-! SeExpr `SeVec`: a fixed-dimension vector over owned or borrowed storage.

A shallow embedding of `src/SeExpr/SeVec.h`.

* Scalars `T` are an arbitrary type carrying the arithmetic the code uses; the
  `<cmath>` functions `sqrt`, `acos`, `cos`, `sin` are parameters of the
  methods that call them, and are instantiated with the real functions in the
  statements made "over the real numbers".
* External buffers live in a `Heap T` (addresses are naturals).  A vector with
  `ref = true` holds an address into the heap, a vector with `ref = false`
  holds its own array.
* A method that assigns through `this` is a function from the heap and the
  object to the heap and the object after the call.  A `const` method that
  returns a vector returns the heap after the call together with the result.
* `for(int k=0;k<d;k++)` is `forLoop d`, with the loop variable typed `Fin d`.
* An output stream is the text written to it; the insertion of one scalar into a
  stream is a parameter `render`.
* `dotChecked` is `dot` with every array access returning an `Option`.
-/

namespace SeExpr

/-! ## Template helpers -/

/-- The type selector `static_if<c,T1,T2>::TYPE`. -/
def static_if (c : Bool) (T1 T2 : Type) : Type :=
  match c with
  | true => T1
  | false => T2

/-- The loop `for(int k=0;k<n;k++) body(k)` acting on a state: iterations run in
increasing order of `k`. -/
def forLoop {σ : Type} : (n : Nat) → (Fin n → σ → σ) → σ → σ
  | 0, _, s => s
  | n + 1, body, s => body (Fin.last n) (forLoop n (fun k => body k.castSucc) s)

/-! ## Reduction class -/

/-- The method `Reducer<T,d>::sum`: the specialisations for `d = 1, 2, 3, 4` and the
generic accumulation loop `T sum=0; for(k) sum+=data[k]`. -/
def Reducer.sum {T : Type} [Zero T] [Add T] : (d : Nat) → (Fin d → T) → T
  | 1, data => data 0
  | 2, data => data 0 + data 1
  | 3, data => data 0 + data 1 + data 2
  | 4, data => (data 0 + data 1) + (data 2 + data 3)
  | d, data => forLoop d (fun k sum => sum + data k) 0

/-- The plain left-to-right sum of `d` inputs, `((0 + data[0]) + data[1]) + ...`, against
which the reducers are compared. -/
def leftToRightSum {T : Type} [Zero T] [Add T] {d : Nat} (data : Fin d → T) : T :=
  (List.ofFn data).foldl (fun acc a => acc + a) 0

/-! ## Storage -/

/-- Memory holding the external buffers that reference vectors point into. -/
abbrev Heap (T : Type) := Nat → T

/-- The class `SeVec<T,d,ref>`: its single member `x` is a pointer `T*` (an address)
when `ref` is true and an array `T[d]` otherwise. -/
structure SeVec (T : Type) (d : Nat) (ref : Bool) where
  x : static_if ref Nat (Fin d → T)

namespace SeVec

variable {T : Type} {d : Nat}

/-- An owning vector holding the array `a`. -/
def ofArray (a : Fin d → T) : SeVec T d false := ⟨a⟩

/-- The constructor `SeVec(T* raw)`: a reference vector bound to the address `raw`. -/
def ofRaw (raw : Nat) : SeVec T d true := ⟨raw⟩

/-- The array member of an owning vector. -/
def arr (v : SeVec T d false) : Fin d → T := v.x

/-- The pointer member of a reference vector. -/
def raw (v : SeVec T d true) : Nat := v.x

/-- The const `operator[]`, `return x[i]`, with `i` inside `[0,d)`. -/
def get (m : Heap T) : {ref : Bool} → SeVec T d ref → Fin d → T
  | true, v, i => m (v.raw + i.val)
  | false, v, i => v.arr i

/-- A store `x[i] = a` through the non-const `operator[]`, with `i` inside `[0,d)`:
a reference vector writes the buffer, an owning vector writes its own array. -/
def set (m : Heap T) : {ref : Bool} → SeVec T d ref → Fin d → T → Heap T × SeVec T d ref
  | true, v, i, a => (Function.update m (v.raw + i.val) a, v)
  | false, v, i, a => (m, ofArray (Function.update v.arr i a))

/-- A store `x[i] = a` at an integer index that the code does not guard.  Outside
`[0,d)` the store is undefined behaviour in the source; here it stores nothing. -/
def setAt (m : Heap T) {ref : Bool} (v : SeVec T d ref) (i : Nat) (a : T) :
    Heap T × SeVec T d ref :=
  if h : i < d then set m v ⟨i, h⟩ a else (m, v)

/-- The empty constructor `SeVec()`, which leaves the array unassigned.  The
indeterminate contents are taken to be `0`; every constructor below stores into a
slot before anything loads from it. -/
def empty [Zero T] : SeVec T d false := ofArray (fun _ => 0)

/-- The constructor `SeVec(T v0)`: `for(k) x[k]=v0`. -/
def splat [Zero T] (v0 : T) : SeVec T d false :=
  forLoop d (fun k (this : SeVec T d false) => ofArray (Function.update this.arr k v0)) empty

/-- The constructor `SeVec(T v1,T v2)` for `d == 2`: `x[0]=v1;x[1]=v2`. -/
def mk2 [Zero T] (v1 v2 : T) : SeVec T 2 false :=
  ofArray (Function.update (Function.update (empty : SeVec T 2 false).arr 0 v1) 1 v2)

/-- The constructor `SeVec(T v1,T v2,T v3)` for `d == 3`: `x[0]=v1;x[1]=v2;x[2]=v3`. -/
def mk3 [Zero T] (v1 v2 v3 : T) : SeVec T 3 false :=
  ofArray (Function.update (Function.update (Function.update
    (empty : SeVec T 3 false).arr 0 v1) 1 v2) 2 v3)

/-- The constructor `SeVec(T v1,T v2,T v3,T v4)` for `d == 4`. -/
def mk4 [Zero T] (v1 v2 v3 v4 : T) : SeVec T 4 false :=
  ofArray (Function.update (Function.update (Function.update (Function.update
    (empty : SeVec T 4 false).arr 0 v1) 1 v2) 2 v3) 3 v4)

/-- The template `operator=`: `for(k) x[k]=other[k]`. -/
def assignLoop (m : Heap T) {ref refother : Bool} (this : SeVec T d ref)
    (other : SeVec T d refother) : Heap T × SeVec T d ref :=
  forLoop d (fun k s => set s.1 s.2 k (get s.1 other k)) (m, this)

/-- The expression `*this = other`.  Between two vectors of one class the implicitly
declared copy assignment is selected and copies the member `x` (the whole array,
or the pointer); between vectors of different storage the template `operator=`
runs. -/
def opAssign (m : Heap T) : {ref refother : Bool} → SeVec T d ref → SeVec T d refother →
    Heap T × SeVec T d ref
  | false, false, _, other => (m, other)
  | true, true, _, other => (m, other)
  | false, true, this, other => assignLoop m this other
  | true, false, this, other => assignLoop m this other

/-- Construction of an owning vector from `other`, as in `T_VEC_VALUE val(*this)`:
the implicit copy constructor when `other` is owning, and the template copy
constructor `{*this=other;}` when `other` is a reference. -/
def copy [Zero T] (m : Heap T) : {refother : Bool} → SeVec T d refother → SeVec T d false
  | false, other => other
  | true, other => (assignLoop m (empty : SeVec T d false) other).2

/-- The method `length2()`: fill the local array `data` with the squares, then reduce. -/
def length2 [Zero T] [Add T] [Mul T] (m : Heap T) {ref : Bool} (this : SeVec T d ref) : T :=
  let data : Fin d → T :=
    forLoop d (fun k data => Function.update data k (get m this k * get m this k)) (fun _ => 0)
  Reducer.sum d data

/-- The method `length()`. -/
def length [Zero T] [Add T] [Mul T] (sqrt : T → T) (m : Heap T) {ref : Bool}
    (this : SeVec T d ref) : T :=
  sqrt (length2 m this)

/-- The scalar `operator/=`: one reciprocal, then `for(k) x[k]*=one_over_val`. -/
def opDivAssignScalar [One T] [Mul T] [Div T] (m : Heap T) {ref : Bool} (this : SeVec T d ref)
    (val : T) : Heap T × SeVec T d ref :=
  let one_over_val : T := 1 / val
  forLoop d (fun k s => set s.1 s.2 k (get s.1 s.2 k * one_over_val)) (m, this)

/-- The scalar `operator*=`: `for(k) x[k]*=val`. -/
def opMulAssignScalar [Mul T] (m : Heap T) {ref : Bool} (this : SeVec T d ref) (val : T) :
    Heap T × SeVec T d ref :=
  forLoop d (fun k s => set s.1 s.2 k (get s.1 s.2 k * val)) (m, this)

/-- The vector `operator+=`: `for(k) x[k]+=other[k]`. -/
def opAddAssign [Add T] (m : Heap T) {ref refother : Bool} (this : SeVec T d ref)
    (other : SeVec T d refother) : Heap T × SeVec T d ref :=
  forLoop d (fun k s => set s.1 s.2 k (get s.1 s.2 k + get s.1 other k)) (m, this)

/-- The vector `operator-=`: `for(k) x[k]-=other[k]`. -/
def opSubAssign [Sub T] (m : Heap T) {ref refother : Bool} (this : SeVec T d ref)
    (other : SeVec T d refother) : Heap T × SeVec T d ref :=
  forLoop d (fun k s => set s.1 s.2 k (get s.1 s.2 k - get s.1 other k)) (m, this)

/-- The vector `operator*=`: `for(k) x[k]*=other[k]`. -/
def opMulAssign [Mul T] (m : Heap T) {ref refother : Bool} (this : SeVec T d ref)
    (other : SeVec T d refother) : Heap T × SeVec T d ref :=
  forLoop d (fun k s => set s.1 s.2 k (get s.1 s.2 k * get s.1 other k)) (m, this)

/-- The vector `operator/=`: `for(k) x[k]/=other[k]`. -/
def opDivAssign [Div T] (m : Heap T) {ref refother : Bool} (this : SeVec T d ref)
    (other : SeVec T d refother) : Heap T × SeVec T d ref :=
  forLoop d (fun k s => set s.1 s.2 k (get s.1 s.2 k / get s.1 other k)) (m, this)

/-- The method `normalize()`: returns `l` together with the heap and the object after the
call. -/
def normalize [Zero T] [One T] [Add T] [Mul T] [Div T] [DecidableEq T] (sqrt : T → T)
    (m : Heap T) {ref : Bool} (this : SeVec T d ref) : T × Heap T × SeVec T d ref :=
  let l : T := length2 m this
  if l ≠ 0 then
    let l : T := sqrt l
    (l, opDivAssignScalar m this l)
  else
    let s := opAssign m this (splat (0 : T))
    (l, setAt s.1 s.2 0 1)

/-- The method `normalized()`: normalise a copy and return it. -/
def normalized [Zero T] [One T] [Add T] [Mul T] [Div T] [DecidableEq T] (sqrt : T → T)
    (m : Heap T) {ref : Bool} (this : SeVec T d ref) : Heap T × SeVec T d false :=
  let other : SeVec T d false := copy m this
  (normalize sqrt m other).2

/-- The unary `operator-`: `val(*this); for(k) val[k]=-val[k]`. -/
def opNeg [Zero T] [Neg T] (m : Heap T) {ref : Bool} (this : SeVec T d ref) :
    Heap T × SeVec T d false :=
  let val : SeVec T d false := copy m this
  forLoop d (fun k s => set s.1 s.2 k (-(get s.1 s.2 k))) (m, val)

/-- The method `operator==`: `equal=true; for(k) equal&=(x[k]==other[k])`. -/
def opEq [DecidableEq T] (m : Heap T) {ref refother : Bool} (this : SeVec T d ref)
    (other : SeVec T d refother) : Bool :=
  forLoop d (fun k equal => equal && decide (get m this k = get m other k)) true

/-- The method `operator!=`. -/
def opNe [DecidableEq T] (m : Heap T) {ref refother : Bool} (this : SeVec T d ref)
    (other : SeVec T d refother) : Bool :=
  !(opEq m this other)

/-- The binary `operator*(T s)`: `val(*this); val*=s`. -/
def opMulScalar [Zero T] [Mul T] (m : Heap T) {ref : Bool} (this : SeVec T d ref) (s : T) :
    Heap T × SeVec T d false :=
  opMulAssignScalar m (copy m this) s

/-- The binary `operator/(T s)`: `val(*this); val/=s`. -/
def opDivScalar [Zero T] [One T] [Mul T] [Div T] (m : Heap T) {ref : Bool}
    (this : SeVec T d ref) (s : T) : Heap T × SeVec T d false :=
  opDivAssignScalar m (copy m this) s

/-- The binary vector `operator+`: `val(*this); val+=other`. -/
def opAdd [Zero T] [Add T] (m : Heap T) {ref refother : Bool} (this : SeVec T d ref)
    (other : SeVec T d refother) : Heap T × SeVec T d false :=
  opAddAssign m (copy m this) other

/-- The binary vector `operator-`: `val(*this); val-=other`. -/
def opSub [Zero T] [Sub T] (m : Heap T) {ref refother : Bool} (this : SeVec T d ref)
    (other : SeVec T d refother) : Heap T × SeVec T d false :=
  opSubAssign m (copy m this) other

/-- The binary vector `operator*`: `val(*this); val*=other`. -/
def opMul [Zero T] [Mul T] (m : Heap T) {ref refother : Bool} (this : SeVec T d ref)
    (other : SeVec T d refother) : Heap T × SeVec T d false :=
  opMulAssign m (copy m this) other

/-- The binary vector `operator/`: `val(*this); val/=other`. -/
def opDiv [Zero T] [Div T] (m : Heap T) {ref refother : Bool} (this : SeVec T d ref)
    (other : SeVec T d refother) : Heap T × SeVec T d false :=
  opDivAssign m (copy m this) other

/-- The friend `operator*(T s,const SeVec& v)`: `return v*s`. -/
def friendMul [Zero T] [Mul T] (m : Heap T) {ref : Bool} (s : T) (v : SeVec T d ref) :
    Heap T × SeVec T d false :=
  opMulScalar m v s

/-- The method `dot`.  The loop adds every product into `vals[d]`, one slot past the
local array `T vals[d]`; the local memory is a function on all indices, of which the
array is the part below `d`, with indeterminate contents taken as `0`.  The value
returned is the local `val`, initialised with `0` after the loop. -/
def dot [Zero T] [Add T] [Mul T] (m : Heap T) {ref refother : Bool} (this : SeVec T d ref)
    (o : SeVec T d refother) : T :=
  let _vals : Nat → T :=
    forLoop d (fun k vals => Function.update vals d (vals d + get m this k * get m o k))
      (fun _ => 0)
  let val : T := 0
  val

/-- The method `cross`, for `d == 3`. -/
def cross [Zero T] [Sub T] [Mul T] (m : Heap T) {ref refother : Bool} (this : SeVec T 3 ref)
    (o : SeVec T 3 refother) : Heap T × SeVec T 3 false :=
  (m, mk3 (get m this 1 * get m o 2 - get m this 2 * get m o 1)
          (get m this 2 * get m o 0 - get m this 0 * get m o 2)
          (get m this 0 * get m o 1 - get m this 1 * get m o 0))

/-- The method `orthogonal`, for `d == 3`. -/
def orthogonal [Zero T] [Add T] [Sub T] [Neg T] (m : Heap T) {ref : Bool}
    (this : SeVec T 3 ref) : Heap T × SeVec T 3 false :=
  (m, mk3 (get m this 1 + get m this 2) (get m this 2 - get m this 0)
          (-(get m this 0) - get m this 1))

/-- The method `angle`, for `d == 3`. -/
def angle [Zero T] [Add T] [Mul T] [Div T] [DecidableEq T] (sqrt acos : T → T) (m : Heap T)
    {ref refother : Bool} (this : SeVec T 3 ref) (o : SeVec T 3 refother) : T :=
  let l : T := length sqrt m this * length sqrt m o
  if l = 0 then 0 else acos (dot m this o / l)

/-- The method `rotateBy`, for `d == 3`:
`c*(*this)+(1-c)*dot(axis)*axis-s*cross(axis)`. -/
def rotateBy [Zero T] [One T] [Add T] [Sub T] [Mul T] (cos sin : T → T) (m : Heap T)
    {ref refother : Bool} (this : SeVec T 3 ref) (axis : SeVec T 3 refother) (angle : T) :
    Heap T × SeVec T 3 false :=
  let c : T := cos angle
  let s : T := sin angle
  let t1 := friendMul m c this
  let t2 := friendMul t1.1 ((1 - c) * dot t1.1 this axis) axis
  let t3 := opAdd t2.1 t1.2 t2.2
  let t4 := cross t3.1 this axis
  let t5 := friendMul t4.1 s t4.2
  opSub t5.1 t3.2 t5.2

end SeVec

/-! ## Stream output -/

/-- The loop `for(int k=lo;k<n;k++) body(k)` acting on a state: the iterations with
`lo ≤ k` run in increasing order of `k`. -/
def forLoopFrom {σ : Type} (lo : Nat) : (n : Nat) → (Fin n → σ → σ) → σ → σ
  | 0, _, s => s
  | n + 1, body, s =>
    if lo ≤ n then body (Fin.last n) (forLoopFrom lo n (fun k => body k.castSucc) s)
    else forLoopFrom lo n (fun k => body k.castSucc) s

namespace SeVec

variable {T : Type} {d : Nat}

/-- The stream `operator<<` for a vector.  The stream is the text written so far, and
`render` is the stream insertion of one scalar, which belongs to the standard
library:
`if(d>0) out<<"("<<val[0]; for(int k=1;k<d;k++) out<<","<<val[k]; out<<")";`. -/
def streamOut (render : T → String) (m : Heap T) {ref : Bool} (val : SeVec T d ref)
    (out : String) : String :=
  let out1 : String :=
    if h : 0 < d then (out ++ "(") ++ render (get m val ⟨0, h⟩) else out
  let out2 : String :=
    forLoopFrom 1 d (fun k o => (o ++ ",") ++ render (get m val k)) out1
  out2 ++ ")"

/-- The text `(x0,x1,...,x[D-1])`: the renderings of the components separated by single
commas, between parentheses. -/
def parenthesized (render : T → String) (m : Heap T) {ref : Bool} (val : SeVec T d ref) :
    String :=
  "(" ++ (",".intercalate (List.ofFn fun k => render (get m val k)) ++ ")")

/-! ## Bounds-checked indexing -/

/-- A load `a[i]` from a local array of `d` slots with the index checked. -/
def loadChecked (a : Fin d → T) (i : Nat) : Option T :=
  if h : i < d then some (a ⟨i, h⟩) else none

/-- A store `a[i] = v` into a local array of `d` slots with the index checked. -/
def storeChecked (a : Fin d → T) (i : Nat) (v : T) : Option (Fin d → T) :=
  if h : i < d then some (Function.update a ⟨i, h⟩ v) else none

/-- The const `operator[]` with the index checked against `[0,d)`. -/
def getChecked (m : Heap T) {ref : Bool} (v : SeVec T d ref) (i : Nat) : Option T :=
  if h : i < d then some (get m v ⟨i, h⟩) else none

/-- The method `dot` with every array access bounds-checked: the loads `x[k]` and
`o[k]`, and the load and the store of `vals[d]+=...` on the local array `T vals[d]`.
The result is `none` as soon as one access is out of range. -/
def dotChecked [Zero T] [Add T] [Mul T] (m : Heap T) {ref refother : Bool}
    (this : SeVec T d ref) (o : SeVec T d refother) : Option T :=
  let vals : Option (Fin d → T) :=
    forLoop d (fun k (acc : Option (Fin d → T)) =>
      acc.bind fun vals =>
      (getChecked m this k.val).bind fun xk =>
      (getChecked m o k.val).bind fun ok =>
      (loadChecked vals d).bind fun old =>
      storeChecked vals d (old + xk * ok))
      (some (fun _ => 0))
  vals.bind fun _ =>
    let val : T := 0
    some val

end SeVec

/-! ## Loops and stores -/

theorem forLoop_induction {σ : Type} (P : Nat → σ → Prop) :
    ∀ (n : Nat) (body : Fin n → σ → σ) (s : σ), P 0 s →
      (∀ (k : Fin n) (t : σ), P k.val t → P (k.val + 1) (body k t)) →
      P n (forLoop n body s) := by
  intro n
  induction n with
  | zero => intro body s h0 _; exact h0
  | succ n ih =>
    intro body s h0 hstep
    have hn : P n (forLoop n (fun k => body k.castSucc) s) :=
      ih (fun k => body k.castSucc) s h0 (fun k t ht => hstep k.castSucc t ht)
    exact hstep (Fin.last n) _ hn

namespace SeVec

variable {T : Type} {d : Nat}

@[simp] theorem arr_ofArray (a : Fin d → T) : (ofArray a).arr = a := rfl

@[simp] theorem ofArray_arr (v : SeVec T d false) : ofArray v.arr = v := rfl

@[simp] theorem get_ofArray (m : Heap T) (a : Fin d → T) (k : Fin d) :
    get m (ofArray a) k = a k := rfl

theorem get_value (m : Heap T) (v : SeVec T d false) (k : Fin d) : get m v k = v.arr k := rfl

theorem get_reference (m : Heap T) (v : SeVec T d true) (k : Fin d) :
    get m v k = m (v.raw + k.val) := rfl

theorem value_ext {v w : SeVec T d false} (h : ∀ k, v.arr k = w.arr k) : v = w := by
  have : v.arr = w.arr := funext h
  calc v = ofArray v.arr := rfl
    _ = ofArray w.arr := by rw [this]
    _ = w := rfl

theorem get_set (m : Heap T) {ref : Bool} (v : SeVec T d ref) (k j : Fin d) (a : T) :
    get (set m v k a).1 (set m v k a).2 j = if j = k then a else get m v j := by
  cases ref
  · simp [get, set, Function.update_apply]
  · simp only [get, set, Function.update_apply]
    have : (v.raw + j.val = v.raw + k.val) ↔ j = k := by
      rw [Fin.ext_iff]; omega
    simp [this]

/-- The loop `for(k) x[k]=f(k,x[k])` on any vector: slot `k` ends up holding `f k` of
what it held before the loop. -/
theorem mapLoop_get (m : Heap T) {ref : Bool} (v : SeVec T d ref) (f : Fin d → T → T)
    (k : Fin d) :
    get (forLoop d (fun j s => set s.1 s.2 j (f j (get s.1 s.2 j))) (m, v)).1
        (forLoop d (fun j s => set s.1 s.2 j (f j (get s.1 s.2 j))) (m, v)).2 k
      = f k (get m v k) := by
  have key := forLoop_induction
    (fun (n : Nat) (s : Heap T × SeVec T d ref) =>
      ∀ j : Fin d, get s.1 s.2 j = if j.val < n then f j (get m v j) else get m v j)
    d (fun j s => set s.1 s.2 j (f j (get s.1 s.2 j))) (m, v)
    (by intro j; simp)
    (by
      intro j t ht i
      rw [get_set]
      by_cases hij : i = j
      · subst hij
        simp [ht i]
      · have hne : i.val ≠ j.val := fun h => hij (Fin.ext h)
        rw [if_neg hij, ht i]
        by_cases hlt : i.val < j.val
        · rw [if_pos hlt, if_pos (by omega)]
        · rw [if_neg hlt, if_neg (by omega)])
  have := key k
  rw [if_pos k.isLt] at this
  exact this

/-- The loop `for(k) x[k]=f(k,x[k])` on an owning vector, where `f` may load from the
heap: the heap is left alone and the array is rewritten slot by slot. -/
theorem mapLoop_value (m : Heap T) (v : SeVec T d false) (f : Fin d → Heap T → T → T) :
    forLoop d (fun j s => set s.1 s.2 j (f j s.1 (get s.1 s.2 j))) (m, v)
      = (m, ofArray (fun k => f k m (v.arr k))) := by
  have key := forLoop_induction
    (fun (n : Nat) (s : Heap T × SeVec T d false) =>
      s.1 = m ∧ ∀ j : Fin d, s.2.arr j = if j.val < n then f j m (v.arr j) else v.arr j)
    d (fun j s => set s.1 s.2 j (f j s.1 (get s.1 s.2 j))) (m, v)
    (by exact ⟨rfl, fun j => by simp⟩)
    (by
      rintro j ⟨tm, tv⟩ ⟨h1, h2⟩
      simp only at h1 h2
      subst h1
      refine ⟨rfl, fun i => ?_⟩
      simp only [set, get, arr_ofArray, Function.update_apply]
      by_cases hij : i = j
      · subst hij
        simp [h2 i]
      · have hne : i.val ≠ j.val := fun h => hij (Fin.ext h)
        rw [if_neg hij, h2 i]
        by_cases hlt : i.val < j.val
        · rw [if_pos hlt, if_pos (by omega)]
        · rw [if_neg hlt, if_neg (by omega)])
  obtain ⟨h1, h2⟩ := key
  refine Prod.ext h1 (value_ext fun k => ?_)
  rw [h2 k, if_pos k.isLt]
  rfl

theorem splat_eq [Zero T] (v0 : T) : (splat v0 : SeVec T d false) = ofArray (fun _ => v0) := by
  exact value_ext fun k => by
    have key := forLoop_induction
      (fun (n : Nat) (s : SeVec T d false) => ∀ j : Fin d, j.val < n → s.arr j = v0)
      d (fun k (this : SeVec T d false) => ofArray (Function.update this.arr k v0)) empty
      (by intro j hj; omega)
      (by
        intro j t ht i hi
        simp only [arr_ofArray, Function.update_apply]
        by_cases hij : i = j
        · rw [if_pos hij]
        · have hne : i.val ≠ j.val := fun h => hij (Fin.ext h)
          rw [if_neg hij]
          exact ht i (by omega))
    exact key k k.isLt

theorem mk3_eq [Zero T] (a b c : T) : mk3 a b c = ofArray ![a, b, c] := by
  apply value_ext
  intro k
  fin_cases k <;> simp [mk3, Function.update_apply]

theorem copy_eq [Zero T] (m : Heap T) {ref : Bool} (v : SeVec T d ref) :
    copy m v = ofArray (fun k => get m v k) := by
  cases ref
  · rfl
  · have h := mapLoop_value m (empty : SeVec T d false) (fun k m' _ => get m' v k)
    exact congrArg Prod.snd h

theorem opMulScalar_eq [Zero T] [Mul T] (m : Heap T) {ref : Bool} (v : SeVec T d ref) (s : T) :
    opMulScalar m v s = (m, ofArray (fun k => get m v k * s)) := by
  unfold opMulScalar opMulAssignScalar
  rw [copy_eq]
  exact mapLoop_value m (ofArray fun k => get m v k) (fun _ _ t => t * s)

theorem friendMul_eq [Zero T] [Mul T] (m : Heap T) {ref : Bool} (s : T) (v : SeVec T d ref) :
    friendMul m s v = (m, ofArray (fun k => get m v k * s)) :=
  opMulScalar_eq m v s

theorem opAdd_eq [Zero T] [Add T] (m : Heap T) {ref refother : Bool} (v : SeVec T d ref)
    (o : SeVec T d refother) :
    opAdd m v o = (m, ofArray (fun k => get m v k + get m o k)) := by
  unfold opAdd opAddAssign
  rw [copy_eq]
  exact mapLoop_value m (ofArray fun k => get m v k) (fun k m' t => t + get m' o k)

theorem opSub_eq [Zero T] [Sub T] (m : Heap T) {ref refother : Bool} (v : SeVec T d ref)
    (o : SeVec T d refother) :
    opSub m v o = (m, ofArray (fun k => get m v k - get m o k)) := by
  unfold opSub opSubAssign
  rw [copy_eq]
  exact mapLoop_value m (ofArray fun k => get m v k) (fun k m' t => t - get m' o k)

theorem opNeg_eq [Zero T] [Neg T] (m : Heap T) {ref : Bool} (v : SeVec T d ref) :
    opNeg m v = (m, ofArray (fun k => -(get m v k))) := by
  unfold opNeg
  rw [copy_eq]
  exact mapLoop_value m (ofArray fun k => get m v k) (fun _ _ t => -t)

theorem opEq_iff [DecidableEq T] (m : Heap T) {ref refother : Bool} (v : SeVec T d ref)
    (o : SeVec T d refother) :
    opEq m v o = true ↔ ∀ k, get m v k = get m o k := by
  have key := forLoop_induction
    (fun (n : Nat) (b : Bool) =>
      b = true ↔ ∀ j : Fin d, j.val < n → get m v j = get m o j)
    d (fun k equal => equal && decide (get m v k = get m o k)) true
    (by simp)
    (by
      intro j b hb
      simp only [Bool.and_eq_true, decide_eq_true_eq, hb]
      constructor
      · rintro ⟨h1, h2⟩ i hi
        by_cases hij : i = j
        · rw [hij]; exact h2
        · have hne : i.val ≠ j.val := fun h => hij (Fin.ext h)
          exact h1 i (by omega)
      · intro h
        exact ⟨fun i hi => h i (by omega), h j (by omega)⟩)
  unfold opEq
  exact key.trans ⟨fun h k => h k k.isLt, fun h k _ => h k⟩

theorem dot_eq_zero [Zero T] [Add T] [Mul T] (m : Heap T) {ref refother : Bool}
    (v : SeVec T d ref) (o : SeVec T d refother) : dot m v o = 0 := rfl

theorem cross_eq [Zero T] [Sub T] [Mul T] (m : Heap T) {ref refother : Bool}
    (v : SeVec T 3 ref) (o : SeVec T 3 refother) :
    cross m v o = (m, ofArray ![get m v 1 * get m o 2 - get m v 2 * get m o 1,
      get m v 2 * get m o 0 - get m v 0 * get m o 2,
      get m v 0 * get m o 1 - get m v 1 * get m o 0]) := by
  unfold cross
  rw [mk3_eq]

theorem orthogonal_eq [Zero T] [Add T] [Sub T] [Neg T] (m : Heap T) {ref : Bool}
    (v : SeVec T 3 ref) :
    orthogonal m v = (m, ofArray ![get m v 1 + get m v 2, get m v 2 - get m v 0,
      -(get m v 0) - get m v 1]) := by
  unfold orthogonal
  rw [mk3_eq]

end SeVec

/-! ## Reduction -/

theorem forLoop_sum_eq {T : Type} [AddCommMonoid T] (d : Nat) (data : Fin d → T) :
    forLoop d (fun k sum => sum + data k) 0 = ∑ k, data k := by
  induction d with
  | zero => simp [forLoop]
  | succ n ih =>
    rw [forLoop, ih (fun k => data k.castSucc), Fin.sum_univ_castSucc]

theorem Reducer.sum_eq {T : Type} [AddCommMonoid T] (d : Nat) (data : Fin d → T) :
    Reducer.sum d data = ∑ k, data k := by
  match d with
  | 0 => simp [Reducer.sum, forLoop]
  | 1 => simp [Reducer.sum]
  | 2 => simp [Reducer.sum, Fin.sum_univ_two]
  | 3 => simp [Reducer.sum, Fin.sum_univ_three]
  | 4 => simp [Reducer.sum, Fin.sum_univ_four, add_assoc]
  | n + 5 =>
    rw [← forLoop_sum_eq]
    rfl

namespace SeVec

variable {T : Type} {d : Nat}

theorem squares_eq [Zero T] [Mul T] (m : Heap T) {ref : Bool} (v : SeVec T d ref)
    (init : Fin d → T) :
    forLoop d (fun k data => Function.update data k (get m v k * get m v k)) init
      = fun k => get m v k * get m v k := by
  have key := forLoop_induction
    (fun (n : Nat) (data : Fin d → T) =>
      ∀ j : Fin d, j.val < n → data j = get m v j * get m v j)
    d (fun k data => Function.update data k (get m v k * get m v k)) init
    (by intro j hj; omega)
    (by
      intro j t ht i hi
      simp only [Function.update_apply]
      by_cases hij : i = j
      · rw [if_pos hij, hij]
      · have hne : i.val ≠ j.val := fun h => hij (Fin.ext h)
        rw [if_neg hij]
        exact ht i (by omega))
  exact funext fun k => key k k.isLt

theorem length2_eq [NonUnitalNonAssocSemiring T] (m : Heap T) {ref : Bool}
    (v : SeVec T d ref) : length2 m v = ∑ k, get m v k * get m v k := by
  unfold length2
  simp only [squares_eq]
  exact Reducer.sum_eq d _

end SeVec

namespace SeVec

variable {T : Type} {d : Nat}

theorem opAssign_value_get (m : Heap T) {ref : Bool} (v : SeVec T d ref)
    (other : SeVec T d false) (k : Fin d) :
    get (opAssign m v other).1 (opAssign m v other).2 k = other.arr k := by
  cases ref
  · rfl
  · exact mapLoop_get m v (fun j _ => other.arr j) k

theorem opDivAssignScalar_get [One T] [Mul T] [Div T] (m : Heap T) {ref : Bool}
    (v : SeVec T d ref) (val : T) (k : Fin d) :
    get (opDivAssignScalar m v val).1 (opDivAssignScalar m v val).2 k
      = get m v k * (1 / val) :=
  mapLoop_get m v (fun _ t => t * (1 / val)) k

theorem setAt_zero_get (m : Heap T) {ref : Bool} (v : SeVec T d ref) (hd : 0 < d) (a : T)
    (k : Fin d) :
    get (setAt m v 0 a).1 (setAt m v 0 a).2 k = if k.val = 0 then a else get m v k := by
  unfold setAt
  rw [dif_pos hd, get_set]
  by_cases hk : k.val = 0
  · rw [if_pos hk, if_pos (Fin.ext hk)]
  · rw [if_neg hk, if_neg (fun h => hk (congrArg Fin.val h))]

theorem normalize_of_length2_eq_zero [Zero T] [One T] [Add T] [Mul T] [Div T] [DecidableEq T]
    (sqrt : T → T) (m : Heap T) {ref : Bool} (v : SeVec T d ref) (h : length2 m v = 0) :
    normalize sqrt m v
      = (length2 m v, setAt (opAssign m v (splat (0 : T))).1
          (opAssign m v (splat (0 : T))).2 0 1) := by
  unfold normalize
  simp only [h, ne_eq, not_true_eq_false, if_false]

theorem normalize_of_length2_ne_zero [Zero T] [One T] [Add T] [Mul T] [Div T] [DecidableEq T]
    (sqrt : T → T) (m : Heap T) {ref : Bool} (v : SeVec T d ref) (h : length2 m v ≠ 0) :
    normalize sqrt m v
      = (sqrt (length2 m v), opDivAssignScalar m v (sqrt (length2 m v))) := by
  unfold normalize
  simp only [h, ne_eq, not_false_eq_true, if_true]

end SeVec

theorem leftToRightSum_eq {T : Type} [AddCommMonoid T] {d : Nat} (data : Fin d → T) :
    leftToRightSum data = ∑ k, data k := by
  unfold leftToRightSum
  rw [← List.sum_ofFn, List.sum_eq_foldl]

theorem scaled_square (x r S : ℝ) (hr : r ≠ 0) (h : r * r = S) :
    x * (1 / r) * (x * (1 / r)) = x ^ 2 * (1 / S) := by
  subst h
  field_simp
  ring

namespace SeVec

variable {T : Type} {d : Nat}

/-- What `rotateBy` computes: the middle term carries the value returned by `dot`. -/
theorem rotateBy_eq [Zero T] [One T] [Add T] [Sub T] [Mul T] (cos sin : T → T) (m : Heap T)
    {ref refother : Bool} (v : SeVec T 3 ref) (axis : SeVec T 3 refother) (angle : T) :
    rotateBy cos sin m v axis angle
      = (m, ofArray fun k =>
          get m v k * cos angle + get m axis k * ((1 - cos angle) * dot m v axis)
            - (cross m v axis).2.arr k * sin angle) := by
  unfold rotateBy
  simp only [friendMul_eq, opAdd_eq, opSub_eq, cross_eq, get_ofArray, arr_ofArray]

/-- What `angle` computes over the reals: `dot` contributes `0`, so away from the guard
the result is `arccos 0`. -/
theorem angle_real (m : Heap ℝ) {ref refother : Bool} (v : SeVec ℝ 3 ref)
    (o : SeVec ℝ 3 refother) :
    angle Real.sqrt Real.arccos m v o
      = if length Real.sqrt m v * length Real.sqrt m o = 0 then 0 else Real.pi / 2 := by
  unfold angle
  simp only [dot_eq_zero, zero_div, Real.arccos_zero]

end SeVec

/-! ## The claims -/

open SeVec

/-- C1 (defect in `dot`): at `x = o = (1,0,0)` the method `dot` returns `0`, while the
inner product, the sum of the products `x[k]*o[k]`, is `1`. -/
theorem dot_unit_vector_returns_zero :
    ∀ m : Heap ℚ,
      dot m (ofArray ![1, 0, 0] : SeVec ℚ 3 false) (ofArray ![1, 0, 0] : SeVec ℚ 3 false) = 0
        ∧ (∑ k : Fin 3, (![1, 0, 0] : Fin 3 → ℚ) k * (![1, 0, 0] : Fin 3 → ℚ) k) = 1 := by
  intro m
  refine ⟨dot_eq_zero m _ _, ?_⟩
  simp [Fin.sum_univ_three]

/-- C2: in every dimension `d ≥ 1`, and for either storage, `normalize()` on a vector
whose components are all `0` returns `0` and leaves component `0` equal to `1` and
every other component equal to `0`. -/
theorem normalize_zero_vector {T : Type} [Field T] [DecidableEq T] {d : Nat} (sqrt : T → T)
    (m : Heap T) {ref : Bool} (v : SeVec T d ref) (hd : 0 < d)
    (hz : ∀ k : Fin d, get m v k = 0) :
    (normalize sqrt m v).1 = 0 ∧
      ∀ k : Fin d, get (normalize sqrt m v).2.1 (normalize sqrt m v).2.2 k
        = if k.val = 0 then 1 else 0 := by
  have hl : length2 m v = 0 := by
    rw [length2_eq]
    exact Finset.sum_eq_zero fun k _ => by rw [hz k, mul_zero]
  rw [normalize_of_length2_eq_zero sqrt m v hl]
  refine ⟨hl, fun k => ?_⟩
  simp only
  rw [setAt_zero_get _ _ hd, opAssign_value_get, splat_eq]
  rfl

/-- Witness for C2: the zero vector of dimension 3 over the rationals. -/
theorem normalize_zero_vector_witness :
    (normalize id (fun _ => (0 : ℚ)) (ofArray ![0, 0, 0] : SeVec ℚ 3 false)).1 = 0 ∧
      ∀ k : Fin 3,
        get (normalize id (fun _ => (0 : ℚ)) (ofArray ![0, 0, 0] : SeVec ℚ 3 false)).2.1
          (normalize id (fun _ => (0 : ℚ)) (ofArray ![0, 0, 0] : SeVec ℚ 3 false)).2.2 k
          = if k.val = 0 then 1 else 0 :=
  normalize_zero_vector id (fun _ => (0 : ℚ)) (ofArray ![0, 0, 0] : SeVec ℚ 3 false)
    (by decide) (by intro k; fin_cases k <;> rfl)

/-- C3: over the reals, for a vector with a nonzero component (either storage, any
dimension), `normalize()` returns the square root of the sum of the squares of the
components before the call, and `length()` of the vector after the call is `1`. -/
theorem normalize_nonzero_vector {d : Nat} (m : Heap ℝ) {ref : Bool} (v : SeVec ℝ d ref)
    (hv : ∃ k : Fin d, get m v k ≠ 0) :
    (normalize Real.sqrt m v).1 = Real.sqrt (∑ k : Fin d, get m v k ^ 2) ∧
      length Real.sqrt (normalize Real.sqrt m v).2.1 (normalize Real.sqrt m v).2.2 = 1 := by
  obtain ⟨k0, hk0⟩ := hv
  have hS : length2 m v = ∑ k : Fin d, get m v k ^ 2 := by
    rw [length2_eq]
    exact Finset.sum_congr rfl fun k _ => (sq (get m v k)).symm
  have hpos : 0 < ∑ k : Fin d, get m v k ^ 2 := by
    have h1 : get m v k0 ^ 2 ≤ ∑ k : Fin d, get m v k ^ 2 :=
      Finset.single_le_sum (f := fun k => get m v k ^ 2) (fun k _ => sq_nonneg _)
        (Finset.mem_univ k0)
    have h2 : 0 < get m v k0 ^ 2 := by positivity
    linarith
  have hne : length2 m v ≠ 0 := by rw [hS]; exact ne_of_gt hpos
  rw [normalize_of_length2_ne_zero Real.sqrt m v hne]
  refine ⟨by rw [hS], ?_⟩
  simp only
  unfold length
  rw [length2_eq]
  simp only [opDivAssignScalar_get]
  rw [hS]
  have hsq : 0 < Real.sqrt (∑ k : Fin d, get m v k ^ 2) := Real.sqrt_pos.mpr hpos
  have hterm : ∀ k : Fin d,
      get m v k * (1 / Real.sqrt (∑ k : Fin d, get m v k ^ 2))
        * (get m v k * (1 / Real.sqrt (∑ k : Fin d, get m v k ^ 2)))
        = get m v k ^ 2 * (1 / (∑ k : Fin d, get m v k ^ 2)) := by
    intro k
    have h3 : Real.sqrt (∑ k : Fin d, get m v k ^ 2) * Real.sqrt (∑ k : Fin d, get m v k ^ 2)
        = ∑ k : Fin d, get m v k ^ 2 := Real.mul_self_sqrt hpos.le
    exact scaled_square (get m v k) _ _ (ne_of_gt hsq) h3
  rw [Finset.sum_congr rfl fun k _ => hterm k, ← Finset.sum_mul,
    mul_one_div_cancel (ne_of_gt hpos), Real.sqrt_one]

/-- Witness for C3: the vector `(3,4)` over the reals. -/
theorem normalize_nonzero_vector_witness :
    (normalize Real.sqrt (fun _ => (0 : ℝ)) (ofArray ![3, 4] : SeVec ℝ 2 false)).1
        = Real.sqrt (∑ k : Fin 2, get (fun _ => (0 : ℝ)) (ofArray ![3, 4] : SeVec ℝ 2 false) k ^ 2)
      ∧ length Real.sqrt
          (normalize Real.sqrt (fun _ => (0 : ℝ)) (ofArray ![3, 4] : SeVec ℝ 2 false)).2.1
          (normalize Real.sqrt (fun _ => (0 : ℝ)) (ofArray ![3, 4] : SeVec ℝ 2 false)).2.2 = 1 :=
  normalize_nonzero_vector (fun _ => (0 : ℝ)) (ofArray ![3, 4] : SeVec ℝ 2 false)
    ⟨0, by simp⟩

/-- C4: in every dimension each `Reducer<T,d>::sum` (the forms for `d = 1, 2, 3, 4`, the
paired one for `d = 4` included, and the generic loop) equals the plain left-to-right
sum of its inputs, and `length2()` equals the sum of the squares of the components. -/
theorem length2_eq_sum_of_squares {T : Type} [CommSemiring T] {d : Nat} (m : Heap T)
    {ref : Bool} (v : SeVec T d ref) (data : Fin d → T) :
    Reducer.sum d data = leftToRightSum data ∧
      length2 m v = ∑ k : Fin d, get m v k * get m v k := by
  refine ⟨?_, length2_eq m v⟩
  rw [Reducer.sum_eq, leftToRightSum_eq]

/-- C5: `x.cross(o)` is the owning vector
`(x[1]*o[2] - x[2]*o[1], x[2]*o[0] - x[0]*o[2], x[0]*o[1] - x[1]*o[0])`, the heap after
the call is the heap before it, and so `x` and `o` read the same components. -/
theorem cross_components {T : Type} [Zero T] [Sub T] [Mul T] (m : Heap T)
    {ref refother : Bool} (x : SeVec T 3 ref) (o : SeVec T 3 refother) :
    (cross m x o).2 = ofArray ![get m x 1 * get m o 2 - get m x 2 * get m o 1,
        get m x 2 * get m o 0 - get m x 0 * get m o 2,
        get m x 0 * get m o 1 - get m x 1 * get m o 0] ∧
      (cross m x o).1 = m ∧
      (∀ k : Fin 3, get (cross m x o).1 x k = get m x k) ∧
      (∀ k : Fin 3, get (cross m x o).1 o k = get m o k) := by
  rw [cross_eq]
  exact ⟨rfl, rfl, fun _ => rfl, fun _ => rfl⟩

/-- C6: over a commutative ring, the expression `a.cross(b) == -(b.cross(a))`, with the
vector's `operator==` and unary `operator-`, evaluates to true. -/
theorem cross_anticommutative {T : Type} [CommRing T] [DecidableEq T] (m : Heap T)
    {ra rb : Bool} (a : SeVec T 3 ra) (b : SeVec T 3 rb) :
    let ab := cross m a b
    let ba := cross ab.1 b a
    let neg := opNeg ba.1 ba.2
    opEq neg.1 ab.2 neg.2 = true := by
  intro ab ba neg
  have hab : ab = (m, ofArray ![get m a 1 * get m b 2 - get m a 2 * get m b 1,
      get m a 2 * get m b 0 - get m a 0 * get m b 2,
      get m a 0 * get m b 1 - get m a 1 * get m b 0]) := cross_eq m a b
  have hba : ba = (m, ofArray ![get m b 1 * get m a 2 - get m b 2 * get m a 1,
      get m b 2 * get m a 0 - get m b 0 * get m a 2,
      get m b 0 * get m a 1 - get m b 1 * get m a 0]) := by
    show cross ab.1 b a = _
    rw [hab]
    exact cross_eq m b a
  have hneg : neg = (m, ofArray fun k => -(get m ba.2 k)) := by
    show opNeg ba.1 ba.2 = _
    rw [opNeg_eq, hba]
  rw [opEq_iff, hneg, hab, hba]
  intro k
  fin_cases k <;> simp <;> ring

/-- C7: over a commutative ring, `v.orthogonal()` is `(v[1]+v[2], v[2]-v[0], -v[0]-v[1])`,
the sum of the products of its components with those of `v` is `0`, and
`v.dot(v.orthogonal())` is `0`. -/
theorem orthogonal_perpendicular {T : Type} [CommRing T] (m : Heap T) {ref : Bool}
    (v : SeVec T 3 ref) :
    (orthogonal m v).2
        = ofArray ![get m v 1 + get m v 2, get m v 2 - get m v 0, -(get m v 0) - get m v 1] ∧
      get m v 0 * (orthogonal m v).2.arr 0 + get m v 1 * (orthogonal m v).2.arr 1
        + get m v 2 * (orthogonal m v).2.arr 2 = 0 ∧
      dot (orthogonal m v).1 v (orthogonal m v).2 = 0 := by
  rw [orthogonal_eq]
  refine ⟨rfl, ?_, dot_eq_zero _ _ _⟩
  simp
  ring

/-- C8 (defect inherited from `dot`): over the reals, at `v = (1,0,0)` the method gives
`v.angle(v) = π/2` and `v.angle(-v) = π/2`, where the angles are `0` and `π`. -/
theorem angle_unit_vector_right_angle :
    ∀ m : Heap ℝ,
      angle Real.sqrt Real.arccos m (ofArray ![1, 0, 0] : SeVec ℝ 3 false)
          (ofArray ![1, 0, 0] : SeVec ℝ 3 false) = Real.pi / 2 ∧
        angle Real.sqrt Real.arccos (opNeg m (ofArray ![1, 0, 0] : SeVec ℝ 3 false)).1
          (ofArray ![1, 0, 0] : SeVec ℝ 3 false)
          (opNeg m (ofArray ![1, 0, 0] : SeVec ℝ 3 false)).2 = Real.pi / 2 ∧
        Real.pi / 2 ≠ 0 ∧ Real.pi / 2 ≠ Real.pi := by
  intro m
  have hl : length Real.sqrt m (ofArray ![1, 0, 0] : SeVec ℝ 3 false) = 1 := by
    unfold length
    rw [length2_eq]
    simp [Fin.sum_univ_three]
  have hn : length Real.sqrt m (ofArray (fun k => -((![1, 0, 0] : Fin 3 → ℝ) k))
      : SeVec ℝ 3 false) = 1 := by
    unfold length
    rw [length2_eq]
    simp [Fin.sum_univ_three]
  refine ⟨?_, ?_, ?_, ?_⟩
  · rw [angle_real, if_neg (by rw [hl]; norm_num)]
  · rw [opNeg_eq, angle_real]
    simp only [get_ofArray]
    rw [if_neg (by rw [hl, hn]; norm_num)]
  · have := Real.pi_pos
    linarith
  · have := Real.pi_pos
    linarith

/-- C9 (defect inherited from `dot`): over the reals, at `v = axis = (0,0,1)` and
`theta = π` the method `rotateBy` returns `(0,0,-1)`, while
`cos(theta)*v + (1 - cos(theta))*(v . axis)*axis - sin(theta)*(v x axis)`, with
`v . axis` the sum of the products `v[k]*axis[k]`, is `(0,0,1)`. -/
theorem rotateBy_about_own_axis :
    ∀ m : Heap ℝ,
      (rotateBy Real.cos Real.sin m (ofArray ![0, 0, 1] : SeVec ℝ 3 false)
          (ofArray ![0, 0, 1] : SeVec ℝ 3 false) Real.pi).2 = ofArray ![0, 0, -1] ∧
        (fun k : Fin 3 =>
          Real.cos Real.pi * (![0, 0, 1] : Fin 3 → ℝ) k
            + (1 - Real.cos Real.pi)
                * (∑ j : Fin 3, (![0, 0, 1] : Fin 3 → ℝ) j * (![0, 0, 1] : Fin 3 → ℝ) j)
                * (![0, 0, 1] : Fin 3 → ℝ) k
            - Real.sin Real.pi
                * (cross m (ofArray ![0, 0, 1] : SeVec ℝ 3 false)
                    (ofArray ![0, 0, 1] : SeVec ℝ 3 false)).2.arr k)
          = ![0, 0, 1] := by
  intro m
  constructor
  · rw [rotateBy_eq, cross_eq]
    apply value_ext
    intro k
    fin_cases k <;> simp [dot_eq_zero]
  · rw [cross_eq]
    funext k
    fin_cases k <;> simp [Fin.sum_univ_three]

/-- C10: over the reals, a vector reading `(1,0,0)` rotated with `rotateBy` by `π/2` about an
axis reading `(0,0,1)` is the owning vector `(0,1,0)`. -/
theorem rotateBy_quarter_turn (m : Heap ℝ) {ref refother : Bool} (v : SeVec ℝ 3 ref)
    (axis : SeVec ℝ 3 refother) (hv : get m v = ![1, 0, 0]) (ha : get m axis = ![0, 0, 1]) :
    (rotateBy Real.cos Real.sin m v axis (Real.pi / 2)).2 = ofArray ![0, 1, 0] := by
  rw [rotateBy_eq, cross_eq]
  apply value_ext
  intro k
  fin_cases k <;> simp [dot_eq_zero, hv, ha]

/-- Witness for C10: both vectors owning. -/
theorem rotateBy_quarter_turn_witness :
    (rotateBy Real.cos Real.sin (fun _ => (0 : ℝ)) (ofArray ![1, 0, 0] : SeVec ℝ 3 false)
      (ofArray ![0, 0, 1] : SeVec ℝ 3 false) (Real.pi / 2)).2 = ofArray ![0, 1, 0] :=
  rotateBy_quarter_turn (fun _ => (0 : ℝ)) (ofArray ![1, 0, 0] : SeVec ℝ 3 false)
    (ofArray ![0, 0, 1] : SeVec ℝ 3 false) rfl rfl

/-! ## Further operators -/

namespace SeVec

variable {T : Type} {d : Nat}

theorem opMul_eq [Zero T] [Mul T] (m : Heap T) {ref refother : Bool} (v : SeVec T d ref)
    (o : SeVec T d refother) :
    opMul m v o = (m, ofArray (fun k => get m v k * get m o k)) := by
  unfold opMul opMulAssign
  rw [copy_eq]
  exact mapLoop_value m (ofArray fun k => get m v k) (fun k m' t => t * get m' o k)

theorem opDiv_eq [Zero T] [Div T] (m : Heap T) {ref refother : Bool} (v : SeVec T d ref)
    (o : SeVec T d refother) :
    opDiv m v o = (m, ofArray (fun k => get m v k / get m o k)) := by
  unfold opDiv opDivAssign
  rw [copy_eq]
  exact mapLoop_value m (ofArray fun k => get m v k) (fun k m' t => t / get m' o k)

theorem opDivScalar_eq [Zero T] [One T] [Mul T] [Div T] (m : Heap T) {ref : Bool}
    (v : SeVec T d ref) (s : T) :
    opDivScalar m v s = (m, ofArray (fun k => get m v k * (1 / s))) := by
  unfold opDivScalar opDivAssignScalar
  rw [copy_eq]
  exact mapLoop_value m (ofArray fun k => get m v k) (fun _ _ t => t * (1 / s))

theorem setAt_get (m : Heap T) {ref : Bool} (v : SeVec T d ref) (i : Nat) (a : T) (k : Fin d) :
    get (setAt m v i a).1 (setAt m v i a).2 k = if k.val = i then a else get m v k := by
  unfold setAt
  by_cases hi : i < d
  · rw [dif_pos hi, get_set]
    by_cases hk : k.val = i
    · rw [if_pos hk, if_pos (Fin.ext hk)]
    · rw [if_neg hk, if_neg (fun h => hk (congrArg Fin.val h))]
  · rw [dif_neg hi, if_neg (by have := k.isLt; omega)]

end SeVec

/-- C11: `v * s` and `s * v` return the same owning vector, whose component `k` is
`v[k]*s`, and after either call the heap is the heap before it, so `v` reads the same
components. -/
theorem scalar_mul_both_sides {T : Type} [Zero T] [Mul T] {d : Nat} (m : Heap T) {ref : Bool}
    (v : SeVec T d ref) (s : T) :
    (opMulScalar m v s).2 = (friendMul m s v).2 ∧
      (∀ k : Fin d, (opMulScalar m v s).2.arr k = get m v k * s) ∧
      (∀ k : Fin d, (friendMul m s v).2.arr k = get m v k * s) ∧
      (opMulScalar m v s).1 = m ∧ (friendMul m s v).1 = m ∧
      (∀ k : Fin d, get (opMulScalar m v s).1 v k = get m v k) ∧
      (∀ k : Fin d, get (friendMul m s v).1 v k = get m v k) := by
  rw [friendMul_eq, opMulScalar_eq]
  exact ⟨rfl, fun _ => rfl, fun _ => rfl, rfl, rfl, fun _ => rfl, fun _ => rfl⟩

/-- C12: for a reference vector bound to the address `p` of a buffer holding `buf`, the
store `ref[i] = s` makes the buffer (and the vector) read `buf` with position `i`
replaced by `s`, keeps the vector bound to `p`, and leaves the heap outside the buffer
as it was. -/
theorem reference_store_updates_buffer {T : Type} {d : Nat} (m : Heap T) (p : Nat)
    (buf : Fin d → T) (hbuf : ∀ k : Fin d, m (p + k.val) = buf k) (i : Fin d) (s : T) :
    (∀ k : Fin d, (set m (ofRaw p : SeVec T d true) i s).1 (p + k.val)
        = if k = i then s else buf k) ∧
      (∀ k : Fin d, get (set m (ofRaw p : SeVec T d true) i s).1
        (set m (ofRaw p : SeVec T d true) i s).2 k = if k = i then s else buf k) ∧
      (set m (ofRaw p : SeVec T d true) i s).2 = ofRaw p ∧
      (∀ a : Nat, a ≠ p + i.val → (set m (ofRaw p : SeVec T d true) i s).1 a = m a) := by
  have hget : ∀ k : Fin d, get (set m (ofRaw p : SeVec T d true) i s).1
      (set m (ofRaw p : SeVec T d true) i s).2 k = if k = i then s else buf k := by
    intro k
    rw [get_set]
    by_cases hk : k = i
    · rw [if_pos hk, if_pos hk]
    · rw [if_neg hk, if_neg hk]
      exact hbuf k
  refine ⟨hget, hget, rfl, ?_⟩
  intro a ha
  show Function.update m (p + i.val) s a = m a
  rw [Function.update_apply, if_neg ha]

/-- Witness for C12: the buffer `[1,2,3]` at address `5`, and `ref[0] = 9`: the buffer
reads `[9,2,3]`. -/
theorem reference_store_updates_buffer_witness :
    (∀ k : Fin 3, (fun a : Nat => if a = 5 then (1 : ℚ) else if a = 6 then 2
        else if a = 7 then 3 else 0) (5 + k.val) = (![1, 2, 3] : Fin 3 → ℚ) k) ∧
      (∀ k : Fin 3,
        (set (fun a : Nat => if a = 5 then (1 : ℚ) else if a = 6 then 2
          else if a = 7 then 3 else 0) (ofRaw 5 : SeVec ℚ 3 true) 0 9).1 (5 + k.val)
          = (![9, 2, 3] : Fin 3 → ℚ) k) := by
  have hbuf : ∀ k : Fin 3, (fun a : Nat => if a = 5 then (1 : ℚ) else if a = 6 then 2
      else if a = 7 then 3 else 0) (5 + k.val) = (![1, 2, 3] : Fin 3 → ℚ) k := by
    intro k
    fin_cases k <;> simp
  refine ⟨hbuf, fun k => ?_⟩
  rw [(reference_store_updates_buffer _ 5 ![1, 2, 3] hbuf 0 9).1 k]
  fin_cases k <;> simp

/-- C13: for either storage of `a` and of `b`, each of `a + b`, `a - b`, `a * b`, `a / b`
returns the heap it was given and an owning vector whose component `k` is `a[k]` and
`b[k]` combined with that operation; and `(1,2,3) + (4,5,6) == (5,7,9)` is true. -/
theorem vector_binary_operators {T : Type} [Field T] [DecidableEq T] {d : Nat} (m : Heap T)
    {ra rb : Bool} (a : SeVec T d ra) (b : SeVec T d rb) :
    opAdd m a b = (m, ofArray fun k => get m a k + get m b k) ∧
      opSub m a b = (m, ofArray fun k => get m a k - get m b k) ∧
      opMul m a b = (m, ofArray fun k => get m a k * get m b k) ∧
      opDiv m a b = (m, ofArray fun k => get m a k / get m b k) ∧
      opEq (opAdd m (mk3 (1 : T) 2 3) (mk3 (4 : T) 5 6)).1
        (opAdd m (mk3 (1 : T) 2 3) (mk3 (4 : T) 5 6)).2 (mk3 (5 : T) 7 9) = true := by
  refine ⟨opAdd_eq m a b, opSub_eq m a b, opMul_eq m a b, opDiv_eq m a b, ?_⟩
  rw [opEq_iff, opAdd_eq]
  simp only [mk3_eq, get_ofArray]
  intro k
  fin_cases k <;> simp <;> norm_num

/-- C15: for either storage of `a` and of `b`, `a == b` is true exactly when `a[k]`
equals `b[k]` for every `k`, and `a != b` is the negation of `a == b`. -/
theorem vector_equality {T : Type} [DecidableEq T] {d : Nat} (m : Heap T) {ra rb : Bool}
    (a : SeVec T d ra) (b : SeVec T d rb) :
    (opEq m a b = true ↔ ∀ k : Fin d, get m a k = get m b k) ∧
      opNe m a b = !(opEq m a b) :=
  ⟨opEq_iff m a b, rfl⟩

/-- C17: `v /= s` leaves in component `k` the product `v[k] * (1/s)` of the old component
with the one reciprocal, `v / s` returns the owning vector with those components and
the heap it was given, and in a field with `s ≠ 0` the product is the quotient
`v[k] / s`. -/
theorem scalar_division_by_reciprocal {T : Type} [Field T] {d : Nat} (m : Heap T) {ref : Bool}
    (v : SeVec T d ref) (s : T) :
    (∀ k : Fin d, get (opDivAssignScalar m v s).1 (opDivAssignScalar m v s).2 k
        = get m v k * (1 / s)) ∧
      opDivScalar m v s = (m, ofArray fun k => get m v k * (1 / s)) ∧
      (s ≠ 0 → ∀ k : Fin d, get m v k * (1 / s) = get m v k / s) := by
  refine ⟨fun k => opDivAssignScalar_get m v s k, opDivScalar_eq m v s, ?_⟩
  intro _ k
  rw [mul_one_div]

/-- Witness for C17: the vector `(2,4)` over the rationals divided by `2`. -/
theorem scalar_division_by_reciprocal_witness :
    (2 : ℚ) ≠ 0 ∧
      ∀ k : Fin 2, get (fun _ => (0 : ℚ)) (ofArray ![2, 4] : SeVec ℚ 2 false) k * (1 / 2)
        = get (fun _ => (0 : ℚ)) (ofArray ![2, 4] : SeVec ℚ 2 false) k / 2 :=
  ⟨by norm_num,
    (scalar_division_by_reciprocal (fun _ => (0 : ℚ)) (ofArray ![2, 4] : SeVec ℚ 2 false) 2).2.2
      (by norm_num)⟩

/-! ## Normalisation -/

namespace SeVec

variable {T : Type} {d : Nat}

theorem set_get_self (m : Heap T) {ref : Bool} (v : SeVec T d ref) (k : Fin d) :
    set m v k (get m v k) = (m, v) := by
  cases ref
  · show (m, ofArray (Function.update v.arr k (v.arr k))) = (m, v)
    rw [Function.update_eq_self]
    rfl
  · show (Function.update m (v.raw + k.val) (m (v.raw + k.val)), v) = (m, v)
    rw [Function.update_eq_self]

/-- A loop `for(k) x[k]=f(k,x[k])` whose `f` gives back what it is given changes nothing. -/
theorem mapLoop_id (m : Heap T) {ref : Bool} (v : SeVec T d ref) (f : Fin d → T → T)
    (hf : ∀ k t, f k t = t) :
    forLoop d (fun j s => set s.1 s.2 j (f j (get s.1 s.2 j))) (m, v) = (m, v) :=
  forLoop_induction (fun (_ : Nat) (s : Heap T × SeVec T d ref) => s = (m, v))
    d (fun j s => set s.1 s.2 j (f j (get s.1 s.2 j))) (m, v) rfl
    (by
      intro j t ht
      subst ht
      simp only [hf]
      exact set_get_self m v j)

theorem setAt_value_heap (m : Heap T) (v : SeVec T d false) (i : Nat) (a : T) :
    (setAt m v i a).1 = m := by
  unfold setAt
  by_cases hi : i < d
  · rw [dif_pos hi]; rfl
  · rw [dif_neg hi]

theorem length2_copy [Zero T] [Add T] [Mul T] (m : Heap T) {ref : Bool} (v : SeVec T d ref) :
    length2 m (copy m v) = length2 m v := by
  rw [copy_eq]
  rfl

theorem normalize_fst [Zero T] [One T] [Add T] [Mul T] [Div T] [DecidableEq T] (sqrt : T → T)
    (m : Heap T) {ref : Bool} (v : SeVec T d ref) :
    (normalize sqrt m v).1 = if length2 m v ≠ 0 then sqrt (length2 m v) else 0 := by
  by_cases h : length2 m v = 0
  · rw [normalize_of_length2_eq_zero sqrt m v h, if_neg (not_not.mpr h)]
    exact h
  · rw [normalize_of_length2_ne_zero sqrt m v h, if_pos h]

theorem normalize_get [Zero T] [One T] [Add T] [Mul T] [Div T] [DecidableEq T] (sqrt : T → T)
    (m : Heap T) {ref : Bool} (v : SeVec T d ref) (k : Fin d) :
    get (normalize sqrt m v).2.1 (normalize sqrt m v).2.2 k
      = if length2 m v ≠ 0 then get m v k * (1 / sqrt (length2 m v))
        else if k.val = 0 then 1 else 0 := by
  by_cases h : length2 m v = 0
  · rw [normalize_of_length2_eq_zero sqrt m v h, if_neg (not_not.mpr h)]
    simp only
    rw [setAt_get, opAssign_value_get, splat_eq]
    rfl
  · rw [normalize_of_length2_ne_zero sqrt m v h, if_pos h]
    exact opDivAssignScalar_get m v _ k

theorem normalize_value_heap [Zero T] [One T] [Add T] [Mul T] [Div T] [DecidableEq T]
    (sqrt : T → T) (m : Heap T) (v : SeVec T d false) : (normalize sqrt m v).2.1 = m := by
  by_cases h : length2 m v = 0
  · rw [normalize_of_length2_eq_zero sqrt m v h]
    exact setAt_value_heap _ _ _ _
  · rw [normalize_of_length2_ne_zero sqrt m v h]
    unfold opDivAssignScalar
    exact congrArg Prod.fst (mapLoop_value m v (fun _ _ t => t * (1 / sqrt (length2 m v))))

theorem length2_real_eq_zero_iff (m : Heap ℝ) {ref : Bool} (v : SeVec ℝ d ref) :
    length2 m v = 0 ↔ ∀ k : Fin d, get m v k = 0 := by
  rw [length2_eq, Finset.sum_eq_zero_iff_of_nonneg (fun k _ => mul_self_nonneg _)]
  constructor
  · intro h k
    exact mul_self_eq_zero.mp (h k (Finset.mem_univ k))
  · intro h k _
    rw [h k, mul_zero]

theorem length2_real_nonneg (m : Heap ℝ) {ref : Bool} (v : SeVec ℝ d ref) :
    0 ≤ length2 m v := by
  rw [length2_eq]
  exact Finset.sum_nonneg fun k _ => mul_self_nonneg _

theorem length_real_eq_zero_iff (m : Heap ℝ) {ref : Bool} (v : SeVec ℝ d ref) :
    length Real.sqrt m v = 0 ↔ ∀ k : Fin d, get m v k = 0 := by
  unfold length
  rw [Real.sqrt_eq_zero (length2_real_nonneg m v)]
  exact length2_real_eq_zero_iff m v

/-- Over the reals, in dimension `d ≥ 1`, the vector left by `normalize()` has squared
length `1`, on either branch. -/
theorem length2_after_normalize_real (m : Heap ℝ) {ref : Bool} (v : SeVec ℝ d ref)
    (hd : 0 < d) :
    length2 (normalize Real.sqrt m v).2.1 (normalize Real.sqrt m v).2.2 = 1 := by
  rw [length2_eq]
  simp only [normalize_get]
  by_cases h : length2 m v = 0
  · simp only [h, ne_eq, not_true_eq_false, if_false]
    rw [Finset.sum_eq_single (⟨0, hd⟩ : Fin d)]
    · simp
    · intro k _ hk
      have : k.val ≠ 0 := fun h0 => hk (Fin.ext h0)
      simp [this]
    · intro h0
      exact absurd (Finset.mem_univ _) h0
  · simp only [h, ne_eq, not_false_eq_true, if_true]
    have hpos : 0 < length2 m v := lt_of_le_of_ne (length2_real_nonneg m v) (Ne.symm h)
    have hsq : Real.sqrt (length2 m v) ≠ 0 := ne_of_gt (Real.sqrt_pos.mpr hpos)
    have hterm : ∀ k : Fin d,
        get m v k * (1 / Real.sqrt (length2 m v)) * (get m v k * (1 / Real.sqrt (length2 m v)))
          = get m v k ^ 2 * (1 / length2 m v) :=
      fun k => scaled_square (get m v k) _ _ hsq (Real.mul_self_sqrt hpos.le)
    rw [Finset.sum_congr rfl fun k _ => hterm k, ← Finset.sum_mul]
    have hS : ∑ k : Fin d, get m v k ^ 2 = length2 m v := by
      rw [length2_eq]
      exact Finset.sum_congr rfl fun k _ => sq (get m v k)
    rw [hS, mul_one_div_cancel h]

end SeVec

/-- C16: for either storage of `v`, `v.normalized()` returns an owning vector whose
components are those `v` would read after `v.normalize()` (when the components of `v`
are all `0`, and `d ≥ 1`, the vector `(1,0,...,0)`), and the heap after the call is the
heap before it, so `v` reads the same components as before. -/
theorem normalized_is_normalize_of_copy {T : Type} [Field T] [DecidableEq T] {d : Nat}
    (sqrt : T → T) (m : Heap T) {ref : Bool} (v : SeVec T d ref) :
    (∀ k : Fin d, (normalized sqrt m v).2.arr k
        = get (normalize sqrt m v).2.1 (normalize sqrt m v).2.2 k) ∧
      ((∀ k : Fin d, get m v k = 0) →
        ∀ k : Fin d, (normalized sqrt m v).2.arr k = if k.val = 0 then 1 else 0) ∧
      (normalized sqrt m v).1 = m ∧
      (∀ k : Fin d, get (normalized sqrt m v).1 v k = get m v k) := by
  have hheap : (normalized sqrt m v).1 = m := normalize_value_heap sqrt m (copy m v)
  have hcomp : ∀ k : Fin d, (normalized sqrt m v).2.arr k
      = get (normalize sqrt m v).2.1 (normalize sqrt m v).2.2 k := by
    intro k
    have h1 : (normalized sqrt m v).2.arr k
        = get (normalize sqrt m (copy m v)).2.1 (normalize sqrt m (copy m v)).2.2 k := rfl
    rw [h1, normalize_get, normalize_get, length2_copy, copy_eq]
    rfl
  refine ⟨hcomp, ?_, hheap, fun k => by rw [hheap]⟩
  intro hz k
  have hl : length2 m v = 0 := by
    rw [length2_eq]
    exact Finset.sum_eq_zero fun j _ => by rw [hz j, mul_zero]
  rw [hcomp k, normalize_get, if_neg (not_not.mpr hl)]

/-- Witness for C16: the zero vector held in a buffer at address `2`. -/
theorem normalized_is_normalize_of_copy_witness :
    (∀ k : Fin 3, get (fun _ => (0 : ℚ)) (ofRaw 2 : SeVec ℚ 3 true) k = 0) ∧
      ∀ k : Fin 3, (normalized id (fun _ => (0 : ℚ)) (ofRaw 2 : SeVec ℚ 3 true)).2.arr k
        = if k.val = 0 then 1 else 0 :=
  ⟨fun _ => rfl,
    (normalized_is_normalize_of_copy id (fun _ => (0 : ℚ)) (ofRaw 2 : SeVec ℚ 3 true)).2.1
      (fun _ => rfl)⟩

/-- C18 (defect inherited from `dot`): over the reals, at `v = o = (1,0,0)` the product
`v.length()*o.length()` is `1`, so the guard does not apply, and `v.angle(o)` returns
`π/2`, while `acos` of the inner product (the sum of the products `v[k]*o[k]`) over
the product of the lengths is `acos(1) = 0`. -/
theorem angle_parallel_unit_vectors :
    ∀ m : Heap ℝ,
      length Real.sqrt m (ofArray ![1, 0, 0] : SeVec ℝ 3 false)
          * length Real.sqrt m (ofArray ![1, 0, 0] : SeVec ℝ 3 false) = 1 ∧
        angle Real.sqrt Real.arccos m (ofArray ![1, 0, 0] : SeVec ℝ 3 false)
          (ofArray ![1, 0, 0] : SeVec ℝ 3 false) = Real.pi / 2 ∧
        Real.arccos ((∑ k : Fin 3, get m (ofArray ![1, 0, 0] : SeVec ℝ 3 false) k
              * get m (ofArray ![1, 0, 0] : SeVec ℝ 3 false) k)
            / (length Real.sqrt m (ofArray ![1, 0, 0] : SeVec ℝ 3 false)
              * length Real.sqrt m (ofArray ![1, 0, 0] : SeVec ℝ 3 false))) = 0 ∧
        Real.pi / 2 ≠ 0 := by
  intro m
  have hl : length Real.sqrt m (ofArray ![1, 0, 0] : SeVec ℝ 3 false) = 1 := by
    unfold length
    rw [length2_eq]
    simp [Fin.sum_univ_three]
  refine ⟨by rw [hl, mul_one], ?_, ?_, ?_⟩
  · rw [angle_real, if_neg (by rw [hl]; norm_num)]
  · rw [hl]
    simp [Fin.sum_univ_three]
  · have := Real.pi_pos
    linarith

/-- C19: over the reals, in dimension `d ≥ 1` and for either storage, the guard of
`normalize()` fails (`length2()` is `0`), and `normalize()` returns `0`, exactly when
every component is `0`, and then the vector is left as `(1,0,...,0)`; on every input
the vector left has `length2()` equal to `1`, and a second `normalize()` returns `1` and
leaves the heap and the vector as the first call left them. -/
theorem normalize_result_is_unit_and_stable {d : Nat} (m : Heap ℝ) {ref : Bool}
    (v : SeVec ℝ d ref) (hd : 0 < d) :
    (length2 m v = 0 ↔ ∀ k : Fin d, get m v k = 0) ∧
      ((normalize Real.sqrt m v).1 = 0 ↔ ∀ k : Fin d, get m v k = 0) ∧
      ((∀ k : Fin d, get m v k = 0) →
        ∀ k : Fin d, get (normalize Real.sqrt m v).2.1 (normalize Real.sqrt m v).2.2 k
          = if k.val = 0 then 1 else 0) ∧
      length2 (normalize Real.sqrt m v).2.1 (normalize Real.sqrt m v).2.2 = 1 ∧
      (normalize Real.sqrt (normalize Real.sqrt m v).2.1 (normalize Real.sqrt m v).2.2).1 = 1 ∧
      (normalize Real.sqrt (normalize Real.sqrt m v).2.1 (normalize Real.sqrt m v).2.2).2
        = (normalize Real.sqrt m v).2 := by
  have hzero := length2_real_eq_zero_iff m v
  have hunit := length2_after_normalize_real m v hd
  have hne : length2 (normalize Real.sqrt m v).2.1 (normalize Real.sqrt m v).2.2 ≠ 0 := by
    rw [hunit]
    exact one_ne_zero
  refine ⟨hzero, ?_, ?_, hunit, ?_, ?_⟩
  · rw [normalize_fst, ← hzero]
    by_cases h : length2 m v = 0
    · simp [h]
    · have hpos : 0 < length2 m v := lt_of_le_of_ne (length2_real_nonneg m v) (Ne.symm h)
      simp only [h, ne_eq, not_false_eq_true, if_true, iff_false]
      exact ne_of_gt (Real.sqrt_pos.mpr hpos)
  · intro hz k
    rw [normalize_get, if_neg (not_not.mpr (hzero.mpr hz))]
  · rw [normalize_fst, if_pos hne, hunit, Real.sqrt_one]
  · rw [normalize_of_length2_ne_zero Real.sqrt _ _ hne, hunit, Real.sqrt_one]
    simp only
    unfold opDivAssignScalar
    exact mapLoop_id _ _ (fun _ t => t * (1 / 1)) (fun _ t => by simp)

/-- Witness for C19: the vector `(3,4)` over the reals. -/
theorem normalize_result_is_unit_and_stable_witness :
    0 < 2 ∧
      length2 (normalize Real.sqrt (fun _ => (0 : ℝ)) (ofArray ![3, 4] : SeVec ℝ 2 false)).2.1
        (normalize Real.sqrt (fun _ => (0 : ℝ)) (ofArray ![3, 4] : SeVec ℝ 2 false)).2.2 = 1 :=
  ⟨by decide,
    (normalize_result_is_unit_and_stable (fun _ => (0 : ℝ))
      (ofArray ![3, 4] : SeVec ℝ 2 false) (by decide)).2.2.2.1⟩

/-! ## Stream output and checked indexing -/

theorem intercalate_go_append (s : String) :
    ∀ (l : List String) (a b : String),
      String.intercalate.go (a ++ b) s l = a ++ String.intercalate.go b s l := by
  intro l
  induction l with
  | nil => intro a b; rfl
  | cons c l ih =>
    intro a b
    show String.intercalate.go (a ++ b ++ s ++ c) s l = a ++ String.intercalate.go (b ++ s ++ c) s l
    rw [← ih a (b ++ s ++ c)]
    simp only [String.append_assoc]

theorem intercalate_go_concat (s : String) :
    ∀ (l : List String) (acc a : String),
      String.intercalate.go acc s (l ++ [a]) = String.intercalate.go acc s l ++ s ++ a := by
  intro l
  induction l with
  | nil => intro acc a; rfl
  | cons c l ih =>
    intro acc a
    show String.intercalate.go (acc ++ s ++ c) s (l ++ [a]) = _
    rw [ih]
    rfl

/-- The comma loop of the stream operator, started at `k = 1`, is the left-to-right
joining of the renderings of the components after the first. -/
theorem forLoopFrom_one_commas :
    ∀ (n : Nat) (r : Fin (n + 1) → String) (s0 : String),
      forLoopFrom 1 (n + 1) (fun k o => (o ++ ",") ++ r k) s0
        = String.intercalate.go s0 "," (List.ofFn fun k : Fin n => r k.succ) := by
  intro n
  induction n with
  | zero =>
    intro r s0
    simp [forLoopFrom, String.intercalate.go]
  | succ n ih =>
    intro r s0
    rw [forLoopFrom, if_pos (Nat.succ_le_succ (Nat.zero_le n)), ih (fun k => r k.castSucc) s0,
      List.ofFn_succ' (fun k : Fin (n + 1) => r k.succ), List.concat_eq_append,
      intercalate_go_concat]
    simp only [Fin.succ_castSucc, Fin.succ_last]

namespace SeVec

variable {T : Type} {d : Nat}

/-- In dimension `d ≥ 1` the stream operator appends `(x0,x1,...,x[D-1])` to the stream. -/
theorem streamOut_of_pos (render : T → String) (m : Heap T) {ref : Bool} (v : SeVec T d ref)
    (out : String) (hd : 0 < d) :
    streamOut render m v out = out ++ parenthesized render m v := by
  cases d with
  | zero => exact absurd hd (Nat.lt_irrefl 0)
  | succ n =>
    unfold streamOut parenthesized
    simp only [dif_pos hd]
    rw [forLoopFrom_one_commas n (fun k => render (get m v k)), List.ofFn_succ]
    show String.intercalate.go (out ++ "(" ++ render (get m v 0)) "," _ ++ ")"
      = out ++ ("(" ++ (String.intercalate.go (render (get m v 0)) "," _ ++ ")"))
    rw [intercalate_go_append]
    simp only [String.append_assoc]

theorem dotChecked_of_pos [Zero T] [Add T] [Mul T] (m : Heap T) {ref refother : Bool}
    (v : SeVec T d ref) (o : SeVec T d refother) (hd : 0 < d) : dotChecked m v o = none := by
  have key := forLoop_induction
    (fun (n : Nat) (acc : Option (Fin d → T)) => 0 < n → acc = none)
    d (fun k (acc : Option (Fin d → T)) =>
      acc.bind fun vals =>
      (getChecked m v k.val).bind fun xk =>
      (getChecked m o k.val).bind fun ok =>
      (loadChecked vals d).bind fun old =>
      storeChecked vals d (old + xk * ok))
    (some (fun _ => 0))
    (by intro h; exact absurd h (Nat.lt_irrefl 0))
    (by
      intro j acc _ _
      cases acc with
      | none => rfl
      | some vals =>
        simp [getChecked, loadChecked, j.isLt])
  unfold dotChecked
  simp only [key hd]
  rfl

end SeVec

/-- C14 (defect in the stream operator): for a vector of dimension `0` the operator writes
`)` alone, where the parenthesised form is `()`: the guard `if(d>0)` skips the opening
parenthesis together with `val[0]`. -/
theorem streamOut_dimension_zero :
    ∀ (render : ℚ → String) (m : Heap ℚ) (v : SeVec ℚ 0 true),
      streamOut render m v "" = ")" ∧ parenthesized render m v = "()" ∧
        streamOut render m v "" ≠ parenthesized render m v := by
  intro render m v
  have h1 : streamOut render m v "" = ")" := by
    simp [streamOut, forLoopFrom]
  have h2 : parenthesized render m v = "()" := by
    simp [parenthesized, String.intercalate]
  refine ⟨h1, h2, ?_⟩
  rw [h1, h2]
  decide

/-- C20 (defect in `dot`): with every array access bounds-checked, `x.dot(o)` at
`x = o = (1,0,0)` reaches the out-of-range branch: the access `vals[d]` uses the index
`3` on the local array of `3` scalars. -/
theorem dotChecked_unit_vector_out_of_range :
    ∀ m : Heap ℚ,
      dotChecked m (ofArray ![1, 0, 0] : SeVec ℚ 3 false) (ofArray ![1, 0, 0] : SeVec ℚ 3 false)
          = none ∧
        loadChecked (fun _ : Fin 3 => (0 : ℚ)) 3 = none := by
  intro m
  exact ⟨dotChecked_of_pos m _ _ (by decide), rfl⟩

end SeExpr
